import Mathlib

set_option maxHeartbeats 1000000

/-!
Verification development for the 3d-git-galaxy history-to-layout pipeline.

The definitions below are a shallow embedding of the TypeScript sources:
  - src/backend/src/server.ts   (calculateLayout, traverse, processRepoAnalysis,
                                 the analyze endpoint and its validation regex)
  - src/backend/src/database.ts (getRepo, storeRepo, updateRepo)
  - src/data/mockData.ts        (addJob, getJobStatus, updateJobStatus, the
                                 retention sweep)

Modelling conventions:
  - JavaScript Map / plain-object stores are modelled as association lists of
    key-value pairs; lookups use lookupKV (first match wins), and Map.set is
    modelled by mapSet, which keeps an existing key in place and appends new
    keys, exactly like the insertion-ordered JavaScript Map.
  - Timestamps are Int milliseconds.
  - JSON.parse composed with JSON.stringify is modelled as the identity on the
    structured payload (the stored values are plain data).
  - In the layout engine a lane variable can be the JavaScript value undefined
    (lanes.get on a missing key); that is modelled by Option Nat, and the NaN
    coordinates that arise from arithmetic on undefined are modelled by the
    none value of Option Int.
-/

/-- Commit record parsed from one line of the raw git log dump
    (src/backend/src/server.ts, processRepoAnalysis parse loop). -/
structure CommitRecord where
  parentHashes : List String
  message : String
  author : String
deriving Repr, DecidableEq

/-- Commit node of the computed layout (src/backend/src/types.ts, CommitNode).
    posX and posZ are Option Int: the none value models the JavaScript NaN
    produced when the lane is undefined; posY is always a real number. -/
structure CommitNode where
  posX : Option Int
  posY : Int
  posZ : Option Int
  parent : Option String
  message : String
  author : String
deriving Repr, DecidableEq

/-- Association-list lookup, first match wins: the observable semantics of
    Map.get and of reading a plain-object property. -/
def lookupKV (k : String) : List (String × α) → Option α
  | [] => none
  | (k2, v) :: rest => if k2 = k then some v else lookupKV k rest

/-- JavaScript Map.set on an insertion-ordered association list: an existing
    key keeps its position and receives the new value, a new key is appended. -/
def mapSet (m : List (String × α)) (k : String) (v : α) : List (String × α) :=
  if (lookupKV k m).isSome then
    m.map (fun e => if e.1 = k then (k, v) else e)
  else
    m ++ [(k, v)]

/-- One hour in milliseconds, the staleness window of the cache and the
    retention window of the job table. -/
def oneHourMs : Int := 60 * 60 * 1000

/-! Job table, src/data/mockData.ts. -/

/-- Job status values of src/data/mockData.ts. -/
inductive JobStatus
  | pending
  | processing
  | complete
  | failed
deriving Repr, DecidableEq

/-- Result payload stored on a completed job and in the cache:
    the laid-out commit graph plus the author histogram. -/
structure AnalysisResult where
  repoData : List (String × CommitNode)
  authors : List (String × Nat)
deriving Repr, DecidableEq

/-- Job record of src/data/mockData.ts. -/
structure Job where
  id : String
  status : JobStatus
  repoUrl : String
  result : Option AnalysisResult
  error : Option String
  createdAt : Int
deriving Repr, DecidableEq

/-- Module state of src/data/mockData.ts: the jobs map and the id counter. -/
structure JobsState where
  jobs : List (String × Job)
  jobIdCounter : Nat
deriving Repr, DecidableEq

/-- Embeds addJob from src/data/mockData.ts: creates a pending job under the
    id job_TIMESTAMP_COUNTER and bumps the counter. -/
def addJob (st : JobsState) (repoUrl : String) (now : Int) : String × JobsState :=
  let jobId := "job_" ++ toString now ++ "_" ++ toString st.jobIdCounter
  (jobId,
    { jobs := mapSet st.jobs jobId
        { id := jobId, status := .pending, repoUrl := repoUrl,
          result := none, error := none, createdAt := now },
      jobIdCounter := st.jobIdCounter + 1 })

/-- Embeds getJobStatus from src/data/mockData.ts. -/
def getJobStatus (st : JobsState) (jobId : String) :
    Option (JobStatus × Option AnalysisResult × Option String) :=
  match lookupKV jobId st.jobs with
  | none => none
  | some job => some (job.status, job.result, job.error)

/-- Field mutation performed by updateJobStatus on the found job: the status
    is always overwritten; result and error are overwritten only when the
    argument is truthy (a result object is always truthy, an error string is
    truthy exactly when nonempty). -/
def applyJobChange (status : JobStatus) (result : Option AnalysisResult)
    (error : Option String) (j : Job) : Job :=
  { j with
    status := status,
    result := match result with
      | some r => some r
      | none => j.result,
    error := match error with
      | some s => if s.isEmpty then j.error else some s
      | none => j.error }

/-- Embeds updateJobStatus from src/data/mockData.ts. An unknown id falls
    through the truthiness guard and leaves the table untouched; a found job
    is mutated in place and re-set under the same id. -/
def updateJobStatus (st : JobsState) (jobId : String) (status : JobStatus)
    (result : Option AnalysisResult) (error : Option String) : JobsState :=
  match lookupKV jobId st.jobs with
  | none => st
  | some _ =>
    { st with jobs := st.jobs.map (fun e =>
        if e.1 = jobId then (jobId, applyJobChange status result error e.2) else e) }

/-- Embeds the body of the cleanup interval from src/data/mockData.ts:
    deletes every job older than one hour. -/
def cleanupJobs (st : JobsState) (now : Int) : JobsState :=
  { st with jobs := st.jobs.filter (fun e => !(decide (now - e.2.createdAt > oneHourMs))) }

/-! Result cache, src/backend/src/database.ts. The SQLite and PostgreSQL
    branches implement identical row-level semantics; the embedding models
    the shared semantics of the repos table keyed by url. -/

/-- Row of the repos table. -/
structure DbRow where
  data : AnalysisResult
  timestamp : Int
  createdAt : Int
deriving Repr, DecidableEq

/-- The repos table, keyed by repository url (primary key). -/
abbrev Database := List (String × DbRow)

/-- Embeds getRepo from src/backend/src/database.ts: a missing row and a row
    whose write timestamp is more than one hour old both read as a miss. -/
def getRepo (db : Database) (url : String) (now : Int) : Option AnalysisResult :=
  match lookupKV url db with
  | none => none
  | some row => if now - row.timestamp > oneHourMs then none else some row.data

/-- Embeds storeRepo from src/backend/src/database.ts: an unconditional upsert
    that refreshes the timestamp. -/
def storeRepo (db : Database) (url : String) (data : AnalysisResult) (now : Int) : Database :=
  mapSet db url { data := data, timestamp := now, createdAt := now }

/-- JavaScript object spread on two insertion-ordered string-keyed objects:
    keys of a keep their order with values overridden by b where b has the
    key, and keys of b absent from a are appended in order. -/
def jsSpread (a b : List (String × α)) : List (String × α) :=
  (a.map (fun e => (e.1, (lookupKV e.1 b).getD e.2)))
    ++ b.filter (fun e => (lookupKV e.1 a).isNone)

/-- Embeds updateRepo from src/backend/src/database.ts: reads the existing row,
    spreads the delta over its layout, keeps the author list, and re-stores;
    a missing row makes the whole call a no-op. -/
def updateRepo (db : Database) (url : String) (delta : List (String × CommitNode))
    (now : Int) : Database :=
  match lookupKV url db with
  | none => db
  | some row =>
    storeRepo db url
      { repoData := jsSpread row.data.repoData delta, authors := row.data.authors } now

/-! Basic lookup lemmas for the association-list stores. -/

theorem lookupKV_append (x y : List (String × α)) (k : String) :
    lookupKV k (x ++ y) =
      match lookupKV k x with
      | some v => some v
      | none => lookupKV k y := by
  induction x with
  | nil => simp [lookupKV]
  | cons e rest ih =>
    obtain ⟨k1, v1⟩ := e
    by_cases he : k1 = k
    · simp [lookupKV, he]
    · simp [lookupKV, he, ih]

theorem lookupKV_map_override (m : List (String × α)) (k : String) (v : α)
    (h : (lookupKV k m).isSome) :
    lookupKV k (m.map (fun e => if e.1 = k then (k, v) else e)) = some v := by
  induction m with
  | nil => simp [lookupKV] at h
  | cons e rest ih =>
    obtain ⟨k1, v1⟩ := e
    by_cases hk : k1 = k
    · subst hk
      simp only [List.map_cons, if_true, eq_self_iff_true]
      simp [lookupKV]
    · simp only [List.map_cons]
      have hf : (if ((k1, v1) : String × α).1 = k then ((k, v) : String × α) else (k1, v1))
          = (k1, v1) := if_neg hk
      rw [hf]
      have h2 : (lookupKV k rest).isSome := by
        simpa [lookupKV, hk] using h
      simp [lookupKV, hk, ih h2]

theorem lookupKV_mapSet_self (m : List (String × α)) (k : String) (v : α) :
    lookupKV k (mapSet m k v) = some v := by
  unfold mapSet
  by_cases hc : (lookupKV k m).isSome
  · rw [if_pos hc]
    exact lookupKV_map_override m k v hc
  · rw [if_neg hc, lookupKV_append]
    have hn : lookupKV k m = none := by
      cases hx : lookupKV k m with
      | none => rfl
      | some w => rw [hx] at hc; simp at hc
    rw [hn]
    simp [lookupKV]

theorem lookupKV_mem {m : List (String × α)} {k : String} {v : α}
    (h : lookupKV k m = some v) : (k, v) ∈ m := by
  induction m with
  | nil => simp [lookupKV] at h
  | cons e rest ih =>
    obtain ⟨k1, v1⟩ := e
    by_cases he : k1 = k
    · subst he
      simp [lookupKV] at h
      subst h
      exact List.mem_cons_self _ _
    · simp only [lookupKV, if_neg he] at h
      exact List.mem_cons_of_mem _ (ih h)

theorem lookupKV_map_update_self {m : List (String × α)} {k : String} {v : α}
    (f : α → α) (h : lookupKV k m = some v) :
    lookupKV k (m.map (fun e => if e.1 = k then (k, f e.2) else e)) = some (f v) := by
  induction m with
  | nil => simp [lookupKV] at h
  | cons e rest ih =>
    obtain ⟨k1, v1⟩ := e
    by_cases he : k1 = k
    · subst he
      simp [lookupKV] at h
      subst h
      simp only [List.map_cons, if_true, eq_self_iff_true]
      simp [lookupKV]
    · simp only [lookupKV, if_neg he] at h
      simp only [List.map_cons]
      have hf : (if ((k1, v1) : String × α).1 = k then ((k, f (k1, v1).2) : String × α)
          else (k1, v1)) = (k1, v1) := if_neg he
      rw [hf]
      simp [lookupKV, he, ih h]

/-! Lane layout engine, src/backend/src/server.ts (calculateLayout and its
    inner traverse). The commit map is the insertion-ordered JavaScript Map
    built by the parse loop, modelled as an association list. -/

/-- The commit map fed to calculateLayout. -/
abbrev CommitMap := List (String × CommitRecord)

/-- Children adjacency derived by inverting the parent relation: iterating the
    commit map in order and, for each listed parent equal to h, appending the
    commit hash. Matches children.get(h) with a missing key read as []. -/
def childrenOf (commits : CommitMap) (h : String) : List String :=
  (commits.map (fun e =>
    e.2.parentHashes.filterMap (fun p => if p = h then some e.1 else none))).flatten

/-- Root enumeration of calculateLayout: keys whose record has an empty parent
    list, in map iteration order. -/
def rootHashes (commits : CommitMap) : List String :=
  (commits.map Prod.fst).filter (fun h =>
    match lookupKV h commits with
    | some r => r.parentHashes.isEmpty
    | none => false)

/-- Mutable state of the layout computation: the result object, the processed
    set, the lanes map (values are Option Nat because the source can store
    the undefined lane), and the fresh-lane counter. -/
structure LayoutState where
  repoData : List (String × CommitNode)
  processedCommits : List String
  lanes : List (String × Option Nat)
  nextLane : Nat
deriving Repr, DecidableEq

/-- Reading lanes.get(h): a missing entry and an entry storing undefined both
    produce undefined, modelled as none. -/
def getLane (lanes : List (String × Option Nat)) (h : String) : Option Nat :=
  (lookupKV h lanes).join

/-- The CommitNode written for a visited commit: x = lane * 2,
    z = (lane mod 2) * 2 - 1, y = the running generation coordinate, parent =
    first listed parent hash or none. A none lane yields NaN x and z,
    modelled as none. -/
def layoutNode (r : CommitRecord) (currentY : Int) (lane : Option Nat) : CommitNode :=
  { posX := lane.map (fun l => (l : Int) * 2),
    posY := currentY,
    posZ := lane.map (fun l => ((l : Int) % 2) * 2 - 1),
    parent := r.parentHashes.head?,
    message := r.message,
    author := r.author }

/-- The nextLane bump done at the top of the forEach body for every child
    after the first (index > 0). -/
def bumpIdx (index : Nat) (st : LayoutState) : LayoutState :=
  if 0 < index then { st with nextLane := st.nextLane + 1 } else st

/-- The running childLane after the bump: for index > 0 it becomes the new
    counter value, otherwise it keeps its previous value. -/
def bumpLane (index : Nat) (st : LayoutState) (childLane0 : Option Nat) : Option Nat :=
  if 0 < index then some (bumpIdx index st).nextLane else childLane0

/-- One iteration of the forEach over a commit's children inside traverse,
    returning the running childLane and the state after the iteration. The
    recursive traverse call is abstracted as tr (instantiated with the next
    fuel level). A child that is a merge commit reached through a parent
    other than its first listed parent is traversed with the lane currently
    assigned to its first listed parent and receives no lanes entry; every
    other child gets the running childLane recorded in lanes and is traversed
    with it. A child hash missing from the commit map would crash the source
    (property read on undefined); that branch is unreachable from
    calculateLayout, and the embedding leaves the state unchanged there. -/
def childStep (commits : CommitMap)
    (tr : String → Int → Option Nat → LayoutState → LayoutState)
    (hash : String) (currentY : Int) (childHash : String) (index : Nat)
    (childLane0 : Option Nat) (st0 : LayoutState) : Option Nat × LayoutState :=
  let st := bumpIdx index st0
  let childLane := bumpLane index st0 childLane0
  match lookupKV childHash commits with
  | none => (childLane, st)
  | some childNode =>
    match childNode.parentHashes with
    | p0 :: _ :: _ =>
      if p0 = hash then
        (childLane,
         tr childHash (currentY + 2) childLane
           { st with lanes := (childHash, childLane) :: st.lanes })
      else
        (childLane, tr childHash (currentY + 2) (getLane st.lanes p0) st)
    | _ =>
      (childLane,
       tr childHash (currentY + 2) childLane
         { st with lanes := (childHash, childLane) :: st.lanes })

/-- The forEach over a commit's children: folds childStep over the child list,
    threading the index and the running childLane. -/
def processChildren (commits : CommitMap)
    (tr : String → Int → Option Nat → LayoutState → LayoutState)
    (hash : String) (currentY : Int) :
    List String → Nat → Option Nat → LayoutState → LayoutState
  | [], _, _, st => st
  | childHash :: rest, index, childLane0, st0 =>
    let r := childStep commits tr hash currentY childHash index childLane0 st0
    processChildren commits tr hash currentY rest (index + 1) r.1 r.2

/-- Fuel-indexed embedding of traverse from calculateLayout. An already
    processed hash returns immediately; otherwise the hash is marked
    processed, its CommitNode is recorded, and the children are walked.
    The fuel only bounds recursion depth: calculateLayout supplies
    commits.length + 1, which exceeds the depth any execution can reach,
    because every productive nested call marks a distinct hash processed. -/
def traverse (commits : CommitMap) :
    Nat → String → Int → Option Nat → LayoutState → LayoutState
  | 0, _, _, _, st => st
  | fuel + 1, hash, currentY, lane, st =>
    if hash ∈ st.processedCommits then st
    else
      match lookupKV hash commits with
      | none => { st with processedCommits := hash :: st.processedCommits }
      | some commitData =>
        let st2 : LayoutState :=
          { st with
            processedCommits := hash :: st.processedCommits,
            repoData := (hash, layoutNode commitData currentY lane) :: st.repoData }
        processChildren commits
          (fun h y l s => traverse commits fuel h y l s)
          hash currentY (childrenOf commits hash) 0 lane st2

/-- Fuel supplied by the embedding of calculateLayout. -/
def layoutFuel (commits : CommitMap) : Nat := commits.length + 1

/-- Final state of calculateLayout: the fold over root hashes, each root
    getting the current fresh lane, being traversed at generation 0, and the
    fresh-lane counter being bumped afterwards. -/
def layoutFinalState (commits : CommitMap) : LayoutState :=
  (rootHashes commits).foldl
    (fun st rootHash =>
      let st1 := { st with lanes := (rootHash, some st.nextLane) :: st.lanes }
      let st2 := traverse commits (layoutFuel commits) rootHash 0 (some st1.nextLane) st1
      { st2 with nextLane := st2.nextLane + 1 })
    { repoData := [], processedCommits := [], lanes := [], nextLane := 0 }

/-- Embeds calculateLayout from src/backend/src/server.ts: the returned
    repoData object (keyed commit nodes; key order is not observed by any
    property below, only lookups). -/
def calculateLayout (commits : CommitMap) : List (String × CommitNode) :=
  (layoutFinalState commits).repoData

/-- Scenario A input: a linear chain c1 <- c2 <- c3 in reverse-chronological
    record order matching the spec scenario. -/
def scenarioA : CommitMap :=
  [("c1", { parentHashes := [], message := "m1", author := "alice" }),
   ("c2", { parentHashes := ["c1"], message := "m2", author := "bob" }),
   ("c3", { parentHashes := ["c2"], message := "m3", author := "alice" })]

/-! Pipeline runner, src/backend/src/server.ts (processRepoAnalysis), and the
    parse loop that builds the commit map from the raw git log dump. -/

/-- Splits a character sequence on a single separator character, with the
    semantics of the JavaScript String.split used by the parse loop (all the
    separators there are single characters): the empty input yields one empty
    field. -/
def chSplit (sep : Char) : List Char → List (List Char)
  | [] => [[]]
  | c :: rest =>
    match chSplit sep rest with
    | [] => if c = sep then [[], []] else [[c]]
    | h :: t => if c = sep then [] :: h :: t else (c :: h) :: t

/-- Joins character sequences with a separator character: the semantics of
    the JavaScript Array.join used to reassemble the subject. -/
def chIntercalate (sep : Char) : List (List Char) → List Char
  | [] => []
  | [x] => x
  | x :: xs => x ++ sep :: chIntercalate sep xs

/-- Parses one line hash|parents|author|subject of the dump, reproducing the
    destructuring in processRepoAnalysis: a missing field and an empty field
    are both falsy, so a missing or empty parent field yields no parents and
    a missing or empty author becomes Unknown; the subject is reassembled
    from all trailing fields with the delimiter restored. -/
def parseLine (line : List Char) : String × CommitRecord :=
  let parts := chSplit '|' line
  let hash := parts.headD []
  let parentHashesStr := (parts.drop 1).headD []
  let authorField := (parts.drop 2).headD []
  let messageParts := parts.drop 3
  (String.mk hash,
    { parentHashes :=
        if parentHashesStr = [] then []
        else (chSplit ' ' parentHashesStr).map String.mk,
      message := String.mk (chIntercalate '|' messageParts),
      author := if authorField = [] then "Unknown" else String.mk authorField })

/-- Parse loop of processRepoAnalysis: split the dump on newlines, drop empty
    lines, and Map.set each parsed record under its hash. -/
def parseCommits (logOutput : String) : CommitMap :=
  ((chSplit '\n' logOutput.data).filter (fun line => line ≠ [])).foldl
    (fun m line =>
      let parsed := parseLine line
      mapSet m parsed.1 parsed.2)
    []

/-- Author histogram of processRepoAnalysis: one count bump per commit node,
    keyed by author name. -/
def computeAuthors (repoData : List (String × CommitNode)) : List (String × Nat) :=
  repoData.foldl
    (fun m e =>
      match lookupKV e.2.author m with
      | some n => mapSet m e.2.author (n + 1)
      | none => mapSet m e.2.author 1)
    []

/-- Outcome of one external stage of the pipeline: success with a value, or a
    thrown error carrying a message. -/
inductive StageResult (α : Type)
  | ok (val : α)
  | err (msg : String)
deriving Repr, DecidableEq

/-- Abstraction of the effectful stages of one processRepoAnalysis run: the
    temp directory creation, the git clone, the git log invocation, and the
    database write. Everything between those stages is pure and embedded
    directly. -/
structure PipelineEnv where
  mkTemp : StageResult Unit
  clone : StageResult Unit
  gitLog : StageResult String
  store : StageResult Unit
deriving Repr, DecidableEq

/-- One updateJobStatus call recorded by the pipeline runner. -/
structure StatusUpdate where
  status : JobStatus
  result : Option AnalysisResult
  error : Option String
deriving Repr, DecidableEq

/-- Message of a caught error as reported to the job: error.message if
    nonempty, else the generic internal-error message. -/
def errMessage (m : String) : String :=
  if m = "" then "An internal server error occurred." else m

/-- Embeds processRepoAnalysis from src/backend/src/server.ts as its observable
    interaction with the job table and the cache: the ordered list of
    updateJobStatus calls it makes and the list of storeRepo writes it
    performs. The first update is always the move to processing; any stage
    failure is caught and recorded as a single failed update; a dump parsing
    to zero records fails with the empty-repository message before any layout
    or cache work; otherwise the layout and author histogram are computed, the
    result is stored, and the job completes with that result. -/
def processRepoAnalysis (env : PipelineEnv) (repoUrl : String) :
    List StatusUpdate × List (String × AnalysisResult) :=
  let start : StatusUpdate := { status := .processing, result := none, error := none }
  match env.mkTemp with
  | .err m => ([start, { status := .failed, result := none, error := some (errMessage m) }], [])
  | .ok _ =>
    match env.clone with
    | .err _ =>
      ([start,
        { status := .failed, result := none,
          error := some "Failed to clone repository. It may be private or the URL is incorrect." }],
       [])
    | .ok _ =>
      match env.gitLog with
      | .err _ =>
        ([start,
          { status := .failed, result := none,
            error := some "Failed to read git log from the repository." }],
         [])
      | .ok logOutput =>
        let commits := parseCommits logOutput
        if commits.length = 0 then
          ([start,
            { status := .failed, result := none,
              error := some "This repository appears to be empty." }],
           [])
        else
          let repoData := calculateLayout commits
          let authors := computeAuthors repoData
          let result : AnalysisResult := { repoData := repoData, authors := authors }
          match env.store with
          | .err m =>
            ([start, { status := .failed, result := none, error := some (errMessage m) }], [])
          | .ok _ =>
            ([start, { status := .complete, result := some result, error := none }],
             [(repoUrl, result)])

/-- Applies one recorded pipeline update to the job table through
    updateJobStatus. -/
def applyUpdate (st : JobsState) (jobId : String) (u : StatusUpdate) : JobsState :=
  updateJobStatus st jobId u.status u.result u.error

/-- Status of a given job observed before any update and after each successive
    update: the observable lifecycle of the job. -/
def jobStatusHistory (st : JobsState) (jobId : String) :
    List StatusUpdate → List (Option JobStatus)
  | [] => [(getJobStatus st jobId).map (fun t => t.1)]
  | u :: rest =>
    (getJobStatus st jobId).map (fun t => t.1)
      :: jobStatusHistory (applyUpdate st jobId u) jobId rest

/-! Repository address validation and the synchronous part of the analyze
    endpoint, src/backend/src/server.ts. -/

/-- Character class of the owner segment in the validation regex:
    alphanumerics, underscore, hyphen. -/
def ownerChar (c : Char) : Bool :=
  c.isAlphanum || c = '_' || c = '-'

/-- Character class of the repository-name segment in the validation regex:
    alphanumerics, underscore, dot, hyphen. -/
def repoNameChar (c : Char) : Bool :=
  c.isAlphanum || c = '_' || c = '.' || c = '-'

/-- Backtracking matcher for a one-or-more character-class atom followed by a
    continuation: the semantics of the regex fragment CLASS+ then rest. -/
def matchPlusThen (cls : Char → Bool) (k : List Char → Bool) : List Char → Bool
  | [] => false
  | c :: s => cls c && (k s || matchPlusThen cls k s)

/-- Matches a literal character sequence and returns the remainder. -/
def dropLit : List Char → List Char → Option (List Char)
  | [], s => some s
  | _ :: _, [] => none
  | p :: ps, c :: s => if p = c then dropLit ps s else none

/-- Continuation after the owner segment: a literal slash followed by one or
    more repository-name characters reaching the end of the string. -/
def slashThenRepoName : List Char → Bool
  | [] => false
  | c :: r => if c = '/' then matchPlusThen repoNameChar List.isEmpty r else false

/-- Embeds the anchored validation regex of the analyze endpoint:
    https://github.com/ then one or more owner characters, a slash, and one or
    more repository-name characters. -/
def testRepoUrl (s : String) : Bool :=
  match dropLit "https://github.com/".data s.data with
  | none => false
  | some rest => matchPlusThen ownerChar slashThenRepoName rest

/-- Response of the synchronous part of the analyze endpoint. -/
inductive AnalyzeResponse
  | invalidUrl
  | cacheHit (payload : AnalysisResult)
  | accepted (jobId : String)
deriving Repr, DecidableEq

/-- Embeds the synchronous body of the analyze endpoint: a missing or
    non-matching address is rejected before the cache is consulted or any job
    is created; a fresh cache hit is returned synchronously; otherwise a new
    job is created and its id returned. -/
def analyzeRequest (db : Database) (st : JobsState) (repoUrl : String) (now : Int) :
    AnalyzeResponse × JobsState :=
  if repoUrl = "" || !(testRepoUrl repoUrl) then (.invalidUrl, st)
  else
    match getRepo db repoUrl now with
    | some cached => (.cacheHit cached, st)
    | none =>
      let created := addJob st repoUrl now
      (.accepted created.1, created.2)

/-! Lookup lemmas for the spread and the retention filter. -/

theorem lookupKV_map_getD (b : List (String × α)) (h : String) :
    ∀ a : List (String × α),
      lookupKV h (a.map (fun e => (e.1, (lookupKV e.1 b).getD e.2)))
        = (lookupKV h a).map (fun v => (lookupKV h b).getD v) := by
  intro a
  induction a with
  | nil => simp [lookupKV]
  | cons e rest ih =>
    obtain ⟨k1, v1⟩ := e
    by_cases hk : k1 = h
    · subst hk
      simp [lookupKV]
    · simp [lookupKV, hk, ih]

theorem lookupKV_filter_keyabsent (a : List (String × β)) (h : String)
    (hnone : lookupKV h a = none) :
    ∀ b : List (String × α),
      lookupKV h (b.filter (fun e => (lookupKV e.1 a).isNone)) = lookupKV h b := by
  intro b
  induction b with
  | nil => rfl
  | cons e rest ih =>
    obtain ⟨k1, v1⟩ := e
    by_cases hk : k1 = h
    · subst hk
      have hp : (lookupKV k1 a).isNone = true := by simp [hnone]
      simp [List.filter, hp, lookupKV]
    · by_cases hp : (lookupKV k1 a).isNone
      · simp [List.filter, hp, lookupKV, hk, ih]
      · simp only [List.filter]
        rw [Bool.eq_false_iff.mpr hp]
        simp [lookupKV, hk, ih]

theorem lookupKV_jsSpread (a b : List (String × α)) (h : String) :
    lookupKV h (jsSpread a b) =
      match lookupKV h b with
      | some n => some n
      | none => lookupKV h a := by
  unfold jsSpread
  rw [lookupKV_append, lookupKV_map_getD]
  cases ha : lookupKV h a with
  | some v =>
    cases hb : lookupKV h b with
    | some n => simp [ha, hb]
    | none => simp [ha, hb]
  | none =>
    rw [lookupKV_filter_keyabsent a h ha b]
    cases hb : lookupKV h b with
    | some n => rfl
    | none => rfl

theorem lookupKV_filter_none (m : List (String × α)) (k : String) (p : String × α → Bool)
    (h : ∀ e ∈ m, e.1 = k → p e = false) :
    lookupKV k (m.filter p) = none := by
  induction m with
  | nil => rfl
  | cons e rest ih =>
    obtain ⟨k1, v1⟩ := e
    by_cases hk : k1 = k
    · subst hk
      have hp : p (k1, v1) = false := h (k1, v1) (List.mem_cons_self _ _) rfl
      simp only [List.filter]
      rw [hp]
      exact ih (fun e he hek => h e (List.mem_cons_of_mem _ he) hek)
    · by_cases hp : p (k1, v1) = true
      · simp only [List.filter]
        rw [hp]
        simp only [lookupKV, if_neg hk]
        exact ih (fun e he hek => h e (List.mem_cons_of_mem _ he) hek)
      · simp only [List.filter]
        rw [Bool.eq_false_iff.mpr hp]
        exact ih (fun e he hek => h e (List.mem_cons_of_mem _ he) hek)

/-! Claim theorems: scenarios and the cache. -/

/-- C3: for the record sequence c1 (no parents), c2 (parent c1), c3
    (parent c2), in that order, the layout puts all three on lane 0 at
    positions (0, 0, -1), (0, 2, -1), (0, 4, -1), with stored parents
    c2.parent = c1 and c3.parent = c2. -/
theorem linear_chain_layout :
    lookupKV "c1" (calculateLayout scenarioA)
      = some { posX := some 0, posY := 0, posZ := some (-1), parent := none,
               message := "m1", author := "alice" }
    ∧ lookupKV "c2" (calculateLayout scenarioA)
      = some { posX := some 0, posY := 2, posZ := some (-1), parent := some "c1",
               message := "m2", author := "bob" }
    ∧ lookupKV "c3" (calculateLayout scenarioA)
      = some { posX := some 0, posY := 4, posZ := some (-1), parent := some "c2",
               message := "m3", author := "alice" } := by
  decide

/-- C7: a cache put followed by a get within the one-hour staleness window
    returns the stored payload unchanged; a get more than one hour after the
    write is a miss, and a get for a key never stored is a miss. -/
theorem cache_put_get_roundtrip (db : Database) (k : String) (v : AnalysisResult)
    (tPut tGet : Int) :
    (tGet - tPut ≤ oneHourMs → getRepo (storeRepo db k v tPut) k tGet = some v)
    ∧ (tGet - tPut > oneHourMs → getRepo (storeRepo db k v tPut) k tGet = none)
    ∧ (lookupKV k db = none → getRepo db k tGet = none) := by
  refine ⟨?_, ?_, ?_⟩
  · intro hfresh
    unfold getRepo storeRepo
    rw [lookupKV_mapSet_self]
    simp [not_lt.mpr hfresh]
  · intro hstale
    unfold getRepo storeRepo
    rw [lookupKV_mapSet_self]
    simp [hstale]
  · intro habsent
    unfold getRepo
    rw [habsent]

theorem cache_put_get_roundtrip_witness :
    getRepo (storeRepo [] "u" { repoData := [], authors := [] } 0) "u" 60
      = some { repoData := [], authors := [] }
    ∧ getRepo (storeRepo [] "u" { repoData := [], authors := [] } 0) "u" 9999999 = none
    ∧ getRepo [] "v" 0 = none :=
  ⟨(cache_put_get_roundtrip [] "u" { repoData := [], authors := [] } 0 60).1 (by decide),
   (cache_put_get_roundtrip [] "u" { repoData := [], authors := [] } 0 9999999).2.1 (by decide),
   (cache_put_get_roundtrip [] "v" { repoData := [], authors := [] } 0 0).2.2 rfl⟩

/-- C8: merging a delta into an existing cache entry re-stores an entry whose
    layout maps every hash in the delta to the delta node (new keys added,
    existing keys overwritten), maps every other hash to its previous node,
    and whose author list is exactly the previous author list; a merge on a
    key with no entry changes nothing. -/
theorem updateRepo_merge_semantics (db : Database) (url : String)
    (delta : List (String × CommitNode)) (now : Int) :
    (∀ row, lookupKV url db = some row →
      ∃ row2, lookupKV url (updateRepo db url delta now) = some row2
        ∧ (∀ h n, lookupKV h delta = some n → lookupKV h row2.data.repoData = some n)
        ∧ (∀ h, lookupKV h delta = none →
            lookupKV h row2.data.repoData = lookupKV h row.data.repoData)
        ∧ row2.data.authors = row.data.authors)
    ∧ (lookupKV url db = none → updateRepo db url delta now = db) := by
  constructor
  · intro row hrow
    unfold updateRepo
    rw [hrow]
    unfold storeRepo
    refine ⟨_, lookupKV_mapSet_self _ _ _, ?_, ?_, rfl⟩
    · intro h n hd
      show lookupKV h (jsSpread row.data.repoData delta) = some n
      rw [lookupKV_jsSpread, hd]
    · intro h hd
      show lookupKV h (jsSpread row.data.repoData delta) = lookupKV h row.data.repoData
      rw [lookupKV_jsSpread, hd]
  · intro habsent
    unfold updateRepo
    rw [habsent]

/-- Demo commit node used by concrete witnesses. -/
def demoNode1 : CommitNode :=
  { posX := some 0, posY := 0, posZ := some (-1), parent := none,
    message := "m", author := "alice" }

/-- Second demo commit node used by concrete witnesses. -/
def demoNode2 : CommitNode :=
  { posX := some 2, posY := 2, posZ := some 1, parent := some "h1",
    message := "m2", author := "bob" }

/-- Demo cache row used by concrete witnesses. -/
def demoRow : DbRow :=
  { data := { repoData := [("h1", demoNode1)], authors := [("alice", 1)] },
    timestamp := 0, createdAt := 0 }

/-- Demo cache contents used by concrete witnesses. -/
def demoDb : Database := [("u", demoRow)]

/-- Demo merge delta used by concrete witnesses. -/
def demoDelta : List (String × CommitNode) := [("h2", demoNode2)]

theorem updateRepo_merge_semantics_witness :
    ∃ row2, lookupKV "u" (updateRepo demoDb "u" demoDelta 5) = some row2
      ∧ (∀ h n, lookupKV h demoDelta = some n → lookupKV h row2.data.repoData = some n)
      ∧ (∀ h, lookupKV h demoDelta = none →
          lookupKV h row2.data.repoData = lookupKV h demoRow.data.repoData)
      ∧ row2.data.authors = demoRow.data.authors :=
  (updateRepo_merge_semantics demoDb "u" demoDelta 5).1 demoRow (by decide)

/-- C10: updateJobStatus on a job id absent from the table is a silent no-op
    (the table is returned unchanged), and the retention sweep removes every
    entry of a given id once all of them are older than one hour, so a
    pipeline finishing after its job was swept cannot resurrect the entry. -/
theorem updateJobStatus_unknown_id_noop (st : JobsState) (jobId : String)
    (status : JobStatus) (result : Option AnalysisResult) (error : Option String)
    (now : Int) :
    (lookupKV jobId st.jobs = none →
      updateJobStatus st jobId status result error = st)
    ∧ ((∀ e ∈ st.jobs, e.1 = jobId → now - e.2.createdAt > oneHourMs) →
      lookupKV jobId (cleanupJobs st now).jobs = none) := by
  constructor
  · intro habsent
    unfold updateJobStatus
    rw [habsent]
  · intro hold
    unfold cleanupJobs
    refine lookupKV_filter_none _ _ _ ?_
    intro e he hek
    have := hold e he hek
    simp [this]

theorem updateJobStatus_unknown_id_noop_witness :
    updateJobStatus { jobs := [], jobIdCounter := 0 } "job_0_0" .complete none none
      = { jobs := [], jobIdCounter := 0 } :=
  (updateJobStatus_unknown_id_noop { jobs := [], jobIdCounter := 0 } "job_0_0"
    .complete none none 0).1 rfl

/-! Claim theorems: the job lifecycle and the empty-repository failure. -/

/-- First update emitted by every pipeline run. -/
def processingUpdate : StatusUpdate :=
  { status := .processing, result := none, error := none }

/-- Shape of the update trace of any pipeline run: exactly the move to
    processing followed by exactly one terminal update. -/
theorem processRepoAnalysis_trace_shape (env : PipelineEnv) (repoUrl : String) :
    ∃ u : StatusUpdate,
      (processRepoAnalysis env repoUrl).1 = [processingUpdate, u]
      ∧ (u.status = .complete ∨ u.status = .failed) := by
  obtain ⟨mk, cl, gl, stg⟩ := env
  cases mk with
  | err m =>
    exact ⟨{ status := .failed, result := none, error := some (errMessage m) },
      rfl, Or.inr rfl⟩
  | ok mkv =>
    cases cl with
    | err m =>
      exact ⟨{ status := .failed, result := none,
               error := some "Failed to clone repository. It may be private or the URL is incorrect." },
        rfl, Or.inr rfl⟩
    | ok clv =>
      cases gl with
      | err m =>
        exact ⟨{ status := .failed, result := none,
                 error := some "Failed to read git log from the repository." },
          rfl, Or.inr rfl⟩
      | ok log =>
        by_cases hlen : (parseCommits log).length = 0
        · refine ⟨{ status := .failed, result := none,
                    error := some "This repository appears to be empty." }, ?_, Or.inr rfl⟩
          simp only [processRepoAnalysis, processingUpdate, if_pos hlen]
        · cases stg with
          | err m =>
            refine ⟨{ status := .failed, result := none,
                      error := some (errMessage m) }, ?_, Or.inr rfl⟩
            simp only [processRepoAnalysis, processingUpdate, if_neg hlen]
          | ok stv =>
            refine ⟨{ status := .complete,
                      result := some
                        { repoData := calculateLayout (parseCommits log),
                          authors := computeAuthors (calculateLayout (parseCommits log)) },
                      error := none }, ?_, Or.inl rfl⟩
            simp only [processRepoAnalysis, processingUpdate, if_neg hlen]

theorem getJobStatus_fst {st : JobsState} {jobId : String} {job : Job}
    (h : lookupKV jobId st.jobs = some job) :
    (getJobStatus st jobId).map (fun t => t.1) = some job.status := by
  simp [getJobStatus, h]

theorem updateJobStatus_lookup_self {st : JobsState} {jobId : String} {job : Job}
    (status : JobStatus) (result : Option AnalysisResult) (error : Option String)
    (h : lookupKV jobId st.jobs = some job) :
    lookupKV jobId (updateJobStatus st jobId status result error).jobs
      = some (applyJobChange status result error job) := by
  unfold updateJobStatus
  rw [h]
  exact lookupKV_map_update_self (applyJobChange status result error) h

/-- C5: for every environment outcome, the observable status sequence of the
    job created for a pipeline run is pending, then processing, then exactly
    one terminal status (complete or failed), after which no further update
    occurs: a terminal status is set at most once and is never left. -/
theorem job_status_lifecycle (st : JobsState) (env : PipelineEnv)
    (repoUrl : String) (now : Int) :
    ∃ t, (t = JobStatus.complete ∨ t = JobStatus.failed) ∧
      jobStatusHistory (addJob st repoUrl now).2 (addJob st repoUrl now).1
        (processRepoAnalysis env repoUrl).1
      = [some .pending, some .processing, some t] := by
  obtain ⟨u, hu, ht⟩ := processRepoAnalysis_trace_shape env repoUrl
  refine ⟨u.status, ht, ?_⟩
  rw [hu]
  have h0 : lookupKV (addJob st repoUrl now).1 ((addJob st repoUrl now).2).jobs
      = some { id := (addJob st repoUrl now).1, status := .pending, repoUrl := repoUrl,
               result := none, error := none, createdAt := now } := by
    unfold addJob
    exact lookupKV_mapSet_self _ _ _
  have h1 := updateJobStatus_lookup_self
    processingUpdate.status processingUpdate.result processingUpdate.error h0
  have h2 := updateJobStatus_lookup_self u.status u.result u.error h1
  simp only [jobStatusHistory, applyUpdate]
  rw [getJobStatus_fst h0, getJobStatus_fst h1, getJobStatus_fst h2]
  rfl

/-- C6: a pipeline run whose dump parses to zero records marks the job failed
    with the empty-repository message; it never reaches complete and performs
    no cache write. -/
theorem empty_repository_run_fails (env : PipelineEnv) (repoUrl log : String)
    (h1 : env.mkTemp = .ok ()) (h2 : env.clone = .ok ()) (h3 : env.gitLog = .ok log)
    (h4 : parseCommits log = []) :
    processRepoAnalysis env repoUrl =
      ([processingUpdate,
        { status := .failed, result := none,
          error := some "This repository appears to be empty." }],
       []) := by
  obtain ⟨mk, cl, gl, stg⟩ := env
  simp only at h1 h2 h3
  subst h1
  subst h2
  subst h3
  have hlen : (parseCommits log).length = 0 := by rw [h4]; rfl
  simp only [processRepoAnalysis, processingUpdate, if_pos hlen]

theorem empty_repository_run_fails_witness :
    processRepoAnalysis
      { mkTemp := .ok (), clone := .ok (), gitLog := .ok "", store := .ok () } "u" =
      ([processingUpdate,
        { status := .failed, result := none,
          error := some "This repository appears to be empty." }],
       []) :=
  empty_repository_run_fails
    { mkTemp := .ok (), clone := .ok (), gitLog := .ok "", store := .ok () }
    "u" "" rfl rfl rfl (by decide)

/-! Correctness of the regex matcher and the validation claims. -/

theorem dropLit_iff (p : List Char) :
    ∀ l r, dropLit p l = some r ↔ l = p ++ r := by
  induction p with
  | nil =>
    intro l r
    simp [dropLit]
  | cons a ps ih =>
    intro l r
    cases l with
    | nil =>
      simp [dropLit]
    | cons c s =>
      by_cases hac : a = c
      · subst hac
        simp [dropLit, ih]
      · constructor
        · intro h
          simp only [dropLit, if_neg hac] at h
          cases h
        · intro h
          injection h with h1 h2
          exact absurd h1.symm hac

theorem matchPlusThen_iff (cls : Char → Bool) (k : List Char → Bool) :
    ∀ l, matchPlusThen cls k l = true ↔
      ∃ p s, l = p ++ s ∧ p ≠ [] ∧ p.all cls = true ∧ k s = true := by
  intro l
  induction l with
  | nil =>
    constructor
    · intro h
      simp [matchPlusThen] at h
    · rintro ⟨p, s, hps, hp, _, _⟩
      exact (hp (List.append_eq_nil.mp hps.symm).1).elim
  | cons c t ih =>
    constructor
    · intro h
      simp only [matchPlusThen, Bool.and_eq_true, Bool.or_eq_true] at h
      obtain ⟨hc, hrest⟩ := h
      cases hrest with
      | inl hk => exact ⟨[c], t, rfl, by simp, by simp [hc], hk⟩
      | inr hm =>
        obtain ⟨p, s, hps, hp, hall, hk⟩ := ih.mp hm
        exact ⟨c :: p, s, by rw [hps]; rfl, by simp, by simp [hc, hall], hk⟩
    · rintro ⟨p, s, hps, hp, hall, hk⟩
      cases p with
      | nil => exact absurd rfl hp
      | cons a p2 =>
        simp only [List.cons_append, List.cons.injEq] at hps
        obtain ⟨hca, hts⟩ := hps
        subst hca
        subst hts
        simp only [List.all_cons, Bool.and_eq_true] at hall
        obtain ⟨hcls, hall2⟩ := hall
        simp only [matchPlusThen, Bool.and_eq_true, Bool.or_eq_true]
        refine ⟨hcls, ?_⟩
        cases p2 with
        | nil => exact Or.inl (by simpa using hk)
        | cons b p3 => exact Or.inr (ih.mpr ⟨b :: p3, s, rfl, by simp, hall2, hk⟩)

theorem matchPlusThen_isEmpty_iff (cls : Char → Bool) (l : List Char) :
    matchPlusThen cls List.isEmpty l = true ↔ l ≠ [] ∧ l.all cls = true := by
  rw [matchPlusThen_iff]
  constructor
  · rintro ⟨p, s, rfl, hp, hall, hk⟩
    have hs : s = [] := by
      cases s with
      | nil => rfl
      | cons x xs => simp [List.isEmpty] at hk
    subst hs
    constructor
    · simpa using hp
    · simpa using hall
  · rintro ⟨hne, hall⟩
    exact ⟨l, [], by simp, hne, hall, by simp⟩

theorem slashThenRepoName_iff (l : List Char) :
    slashThenRepoName l = true ↔
      ∃ repo, l = '/' :: repo ∧ repo ≠ [] ∧ repo.all repoNameChar = true := by
  cases l with
  | nil =>
    constructor
    · intro h; simp [slashThenRepoName] at h
    · rintro ⟨repo, h, _, _⟩; cases h
  | cons c r =>
    by_cases hc : c = '/'
    · subst hc
      simp only [slashThenRepoName, eq_self_iff_true, if_true]
      rw [matchPlusThen_isEmpty_iff]
      constructor
      · rintro ⟨hne, hall⟩; exact ⟨r, rfl, hne, hall⟩
      · rintro ⟨repo, heq, hne, hall⟩
        injection heq with h1 h2
        subst h2
        exact ⟨hne, hall⟩
    · constructor
      · intro h
        simp only [slashThenRepoName, if_neg hc] at h
        cases h
      · rintro ⟨repo, heq, _, _⟩
        injection heq with h1 h2
        exact absurd h1 hc

/-- Shape of an accepted address as the embedding computes it: the literal
    https prefix with host github.com, a nonempty owner segment over
    alphanumerics, underscore and hyphen, a slash, and a nonempty
    repository-name segment over alphanumerics, underscore, dot and hyphen. -/
def githubUrlShape (s : String) : Prop :=
  ∃ owner repo : List Char,
    s.data = "https://github.com/".data ++ owner ++ '/' :: repo
    ∧ owner ≠ [] ∧ repo ≠ []
    ∧ owner.all ownerChar = true ∧ repo.all repoNameChar = true

/-- Shape asserted by the claim, stated from its words for comparison: both
    the owner segment and the repository-name segment may contain
    alphanumerics, underscores, hyphens, and dots. -/
def claimedUrlShape (s : String) : Prop :=
  ∃ owner repo : List Char,
    s.data = "https://github.com/".data ++ owner ++ '/' :: repo
    ∧ owner ≠ [] ∧ repo ≠ []
    ∧ owner.all repoNameChar = true ∧ repo.all repoNameChar = true

/-- C9 counterexample: the address https://github.com/a.b/c has the claimed
    shape (its owner segment a.b uses a dot, which the claim allows), yet the
    validation regex rejects it, because the owner character class of the
    regex has no dot. -/
theorem repo_url_claim_counterexample :
    claimedUrlShape "https://github.com/a.b/c"
    ∧ testRepoUrl "https://github.com/a.b/c" = false := by
  constructor
  · exact ⟨['a', '.', 'b'], ['c'], by decide, by decide, by decide, by decide, by decide⟩
  · decide

/-- C9 amended: an address is accepted by the analysis endpoint exactly when
    it is https://github.com/ followed by a nonempty owner segment of
    alphanumerics, underscores and hyphens (no dots), a slash, and a nonempty
    repository-name segment of alphanumerics, underscores, hyphens and dots;
    any other address is rejected synchronously with no cache read and no job
    created. -/
theorem repo_url_validation (s : String) :
    (testRepoUrl s = true ↔ githubUrlShape s)
    ∧ (testRepoUrl s = false →
        ∀ (db : Database) (jst : JobsState) (now : Int),
          analyzeRequest db jst s now = (.invalidUrl, jst)) := by
  constructor
  · unfold testRepoUrl githubUrlShape
    cases hd : dropLit "https://github.com/".data s.data with
    | none =>
      constructor
      · intro h
        simp at h
      · rintro ⟨o, r, heq, _, _, _, _⟩
        have hsome : dropLit "https://github.com/".data s.data
            = some (o ++ '/' :: r) := by
          refine (dropLit_iff _ _ _).mpr ?_
          rw [heq, List.append_assoc]
        rw [hd] at hsome
        cases hsome
    | some rest =>
      have hsd : s.data = "https://github.com/".data ++ rest :=
        (dropLit_iff _ _ _).mp hd
      rw [matchPlusThen_iff]
      constructor
      · rintro ⟨p, s2, hrest, hp, hall, hk⟩
        obtain ⟨repo, hs2, hrne, hrall⟩ := (slashThenRepoName_iff s2).mp hk
        refine ⟨p, repo, ?_, hp, hrne, hall, hrall⟩
        rw [hsd, hrest, hs2, List.append_assoc]
      · rintro ⟨o, r, heq, ho, hr, hoall, hrall⟩
        have hrest : rest = o ++ '/' :: r := by
          have h2 : "https://github.com/".data ++ rest
              = "https://github.com/".data ++ (o ++ '/' :: r) := by
            rw [← hsd, heq, List.append_assoc]
          exact List.append_cancel_left h2
        refine ⟨o, '/' :: r, hrest, ho, hoall, ?_⟩
        exact (slashThenRepoName_iff _).mpr ⟨r, rfl, hr, hrall⟩
  · intro hf db jst now
    simp [analyzeRequest, hf]

theorem repo_url_validation_witness :
    analyzeRequest [] { jobs := [], jobIdCounter := 0 } "nope" 0
      = (.invalidUrl, { jobs := [], jobIdCounter := 0 }) :=
  (repo_url_validation "nope").2 (by decide) [] { jobs := [], jobIdCounter := 0 } 0

/-! Invariant machinery for the layout traversal: any state predicate
    preserved by the primitive state updates is preserved by the child loop,
    by traverse, and by the whole root fold. The predicate Q restricts which
    hashes can ever be visited (roots and members of children lists). -/

theorem traverse_zero (commits : CommitMap) (hash : String) (currentY : Int)
    (lane : Option Nat) (st : LayoutState) :
    traverse commits 0 hash currentY lane st = st := rfl

theorem traverse_succ (commits : CommitMap) (fuel : Nat) (hash : String)
    (currentY : Int) (lane : Option Nat) (st : LayoutState) :
    traverse commits (fuel + 1) hash currentY lane st =
      if hash ∈ st.processedCommits then st
      else
        match lookupKV hash commits with
        | none => { st with processedCommits := hash :: st.processedCommits }
        | some commitData =>
          processChildren commits
            (fun h y l s => traverse commits fuel h y l s)
            hash currentY (childrenOf commits hash) 0 lane
            { st with
              processedCommits := hash :: st.processedCommits,
              repoData := (hash, layoutNode commitData currentY lane) :: st.repoData } := rfl

theorem childStep_preserves (commits : CommitMap) (P : LayoutState → Prop)
    (Q : String → Prop)
    (tr : String → Int → Option Nat → LayoutState → LayoutState)
    (hTr : ∀ c y2 l s, Q c → P s → P (tr c y2 l s))
    (hNext : ∀ s, P s → P { s with nextLane := s.nextLane + 1 })
    (hLane : ∀ s c cl, Q c → P s → P { s with lanes := (c, cl) :: s.lanes })
    (hash : String) (y : Int) (childHash : String) (index : Nat)
    (childLane0 : Option Nat) (st0 : LayoutState)
    (hQ : Q childHash) (hP : P st0) :
    P (childStep commits tr hash y childHash index childLane0 st0).2 := by
  have hPb : P (bumpIdx index st0) := by
    unfold bumpIdx
    by_cases hi : 0 < index
    · rw [if_pos hi]
      exact hNext st0 hP
    · rw [if_neg hi]
      exact hP
  simp only [childStep]
  split
  · exact hPb
  · split
    · split
      · exact hTr _ _ _ _ hQ (hLane _ _ _ hQ hPb)
      · exact hTr _ _ _ _ hQ hPb
    · exact hTr _ _ _ _ hQ (hLane _ _ _ hQ hPb)

theorem processChildren_preserves (commits : CommitMap) (P : LayoutState → Prop)
    (Q : String → Prop)
    (tr : String → Int → Option Nat → LayoutState → LayoutState)
    (hTr : ∀ c y2 l s, Q c → P s → P (tr c y2 l s))
    (hNext : ∀ s, P s → P { s with nextLane := s.nextLane + 1 })
    (hLane : ∀ s c cl, Q c → P s → P { s with lanes := (c, cl) :: s.lanes })
    (hash : String) (y : Int) :
    ∀ kids index cl st, (∀ c ∈ kids, Q c) → P st →
      P (processChildren commits tr hash y kids index cl st) := by
  intro kids
  induction kids with
  | nil =>
    intro index cl st _ hP
    exact hP
  | cons c rest ih =>
    intro index cl st hQs hP
    simp only [processChildren]
    exact ih (index + 1) _ _ (fun x hx => hQs x (List.mem_cons_of_mem _ hx))
      (childStep_preserves commits P Q tr hTr hNext hLane hash y c index cl st
        (hQs c (List.mem_cons_self _ _)) hP)

theorem traverse_preserves (commits : CommitMap) (P : LayoutState → Prop)
    (Q : String → Prop)
    (hQchild : ∀ h c, Q h → c ∈ childrenOf commits h → Q c)
    (hMark : ∀ st h, Q h → h ∉ st.processedCommits → P st →
        P { st with processedCommits := h :: st.processedCommits })
    (hVisit : ∀ st h r y lane, Q h → lookupKV h commits = some r →
        h ∉ st.processedCommits → P st →
        P { st with processedCommits := h :: st.processedCommits,
                    repoData := (h, layoutNode r y lane) :: st.repoData })
    (hNext : ∀ s, P s → P { s with nextLane := s.nextLane + 1 })
    (hLane : ∀ s c cl, Q c → P s → P { s with lanes := (c, cl) :: s.lanes }) :
    ∀ fuel h y lane st, Q h → P st → P (traverse commits fuel h y lane st) := by
  intro fuel
  induction fuel with
  | zero =>
    intro h y lane st _ hP
    exact hP
  | succ fuel ih =>
    intro h y lane st hQ hP
    rw [traverse_succ]
    by_cases hmem : h ∈ st.processedCommits
    · rw [if_pos hmem]
      exact hP
    · rw [if_neg hmem]
      cases hr : lookupKV h commits with
      | none => exact hMark st h hQ hmem hP
      | some r =>
        refine processChildren_preserves commits P Q _ ?_ hNext hLane h y _ 0 lane _ ?_ ?_
        · exact fun c y2 l s hc hs => ih c y2 l s hc hs
        · exact fun c hc => hQchild h c hQ hc
        · exact hVisit st h r y lane hQ hr hmem hP

theorem layoutFinalState_preserves (commits : CommitMap) (P : LayoutState → Prop)
    (Q : String → Prop)
    (hQchild : ∀ h c, Q h → c ∈ childrenOf commits h → Q c)
    (hMark : ∀ st h, Q h → h ∉ st.processedCommits → P st →
        P { st with processedCommits := h :: st.processedCommits })
    (hVisit : ∀ st h r y lane, Q h → lookupKV h commits = some r →
        h ∉ st.processedCommits → P st →
        P { st with processedCommits := h :: st.processedCommits,
                    repoData := (h, layoutNode r y lane) :: st.repoData })
    (hNext : ∀ s, P s → P { s with nextLane := s.nextLane + 1 })
    (hLane : ∀ s c cl, Q c → P s → P { s with lanes := (c, cl) :: s.lanes })
    (hRoots : ∀ r ∈ rootHashes commits, Q r)
    (hInit : P { repoData := [], processedCommits := [], lanes := [], nextLane := 0 }) :
    P (layoutFinalState commits) := by
  unfold layoutFinalState
  suffices haux : ∀ (l : List String), (∀ r ∈ l, Q r) → ∀ st, P st →
      P (l.foldl
        (fun st rootHash =>
          let st1 := { st with lanes := (rootHash, some st.nextLane) :: st.lanes }
          let st2 := traverse commits (layoutFuel commits) rootHash 0 (some st1.nextLane) st1
          { st2 with nextLane := st2.nextLane + 1 })
        st) by
    exact haux _ hRoots _ hInit
  intro l
  induction l with
  | nil =>
    intro _ st hP
    exact hP
  | cons r rest ih =>
    intro hQl st hP
    simp only [List.foldl_cons]
    refine ih (fun x hx => hQl x (List.mem_cons_of_mem _ hx)) _ ?_
    refine hNext _ ?_
    refine traverse_preserves commits P Q hQchild hMark hVisit hNext hLane _ _ _ _ _
      (hQl r (List.mem_cons_self _ _)) ?_
    exact hLane _ _ _ (hQl r (List.mem_cons_self _ _)) hP

theorem mem_childrenOf {commits : CommitMap} {h c : String} :
    c ∈ childrenOf commits h ↔ ∃ e ∈ commits, e.1 = c ∧ h ∈ e.2.parentHashes := by
  unfold childrenOf
  simp only [List.mem_flatten, List.mem_map]
  constructor
  · rintro ⟨l, ⟨e, he, rfl⟩, hcl⟩
    obtain ⟨p, hp, hpc⟩ := List.mem_filterMap.mp hcl
    by_cases hph : p = h
    · subst hph
      rw [if_pos rfl] at hpc
      injection hpc with hec
      exact ⟨e, he, hec, hp⟩
    · rw [if_neg hph] at hpc
      cases hpc
  · rintro ⟨e, he, hec, hpe⟩
    refine ⟨_, ⟨e, he, rfl⟩, List.mem_filterMap.mpr ⟨h, hpe, ?_⟩⟩
    rw [if_pos rfl, hec]

theorem mem_rootHashes {commits : CommitMap} {h : String}
    (hm : h ∈ rootHashes commits) :
    h ∈ commits.map Prod.fst
    ∧ ∃ r, lookupKV h commits = some r ∧ r.parentHashes = [] := by
  unfold rootHashes at hm
  obtain ⟨hmem, hpred⟩ := List.mem_filter.mp hm
  refine ⟨hmem, ?_⟩
  cases hl : lookupKV h commits with
  | none =>
    rw [hl] at hpred
    cases hpred
  | some r =>
    rw [hl] at hpred
    have hpred2 : r.parentHashes.isEmpty = true := hpred
    refine ⟨r, rfl, ?_⟩
    cases hr : r.parentHashes with
    | nil => rfl
    | cons a t =>
      rw [hr] at hpred2
      cases hpred2

/-- C4: every CommitNode in a computed layout stores as its parent exactly the
    first parent hash listed in its CommitRecord, or none when the record has
    no parents; the node carries no other parent data (its only link field is
    that single parent). -/
theorem commitNode_parent_is_first_parent (commits : CommitMap) (h : String)
    (n : CommitNode) (hn : lookupKV h (calculateLayout commits) = some n) :
    ∃ r, lookupKV h commits = some r ∧ n.parent = r.parentHashes.head?
      ∧ n.message = r.message ∧ n.author = r.author := by
  have hP := layoutFinalState_preserves commits
    (P := fun st => ∀ h2 n2, lookupKV h2 st.repoData = some n2 →
      ∃ r, lookupKV h2 commits = some r ∧ n2.parent = r.parentHashes.head?
        ∧ n2.message = r.message ∧ n2.author = r.author)
    (Q := fun _ => True)
    (fun _ _ _ _ => trivial)
    (fun st h2 _ _ hPst => hPst)
    (fun st h2 r y lane _ hr _ hPst => by
      intro h3 n3 hl
      by_cases hh : h2 = h3
      · subst hh
        simp only [lookupKV, eq_self_iff_true, if_true, Option.some.injEq] at hl
        subst hl
        exact ⟨r, hr, rfl, rfl, rfl⟩
      · simp only [lookupKV, if_neg hh] at hl
        exact hPst h3 n3 hl)
    (fun st hPst => hPst)
    (fun st c cl _ hPst => hPst)
    (fun _ _ => trivial)
    (fun h2 n2 hl => Option.noConfusion hl)
  exact hP h n hn

theorem commitNode_parent_is_first_parent_witness :
    ∃ r, lookupKV "c2" scenarioA = some r
      ∧ (some "c1" : Option String) = r.parentHashes.head?
      ∧ "m2" = r.message ∧ "bob" = r.author :=
  commitNode_parent_is_first_parent scenarioA "c2"
    { posX := some 0, posY := 2, posZ := some (-1), parent := some "c1",
      message := "m2", author := "bob" }
    (by decide)

/-- C1 counterexample: a commit whose only listed parent is absent from the
    commit map produces an empty layout; contrary to the claim, it is not
    assigned a position or a fresh lane (the computation is total, so the
    builder does not crash). -/
theorem dangling_parent_claim_counterexample :
    calculateLayout [("a", { parentHashes := ["zzz"], message := "m", author := "x" })]
      = [] := by
  decide

/-- C1 amended: a commit whose listed parent hashes are all absent from the
    commit map is not treated as a root for lane initiation: root enumeration
    requires an empty parent list, and traversal only reaches children of
    present commits, so such a commit is omitted from the output layout
    entirely (no position, no lane); the builder and layout engine do not
    crash on such dangling references, since the layout function is total. -/
theorem dangling_parent_commit_omitted (commits : CommitMap) (d : String)
    (hd : ∀ e ∈ commits, e.1 = d →
      e.2.parentHashes ≠ [] ∧ ∀ p ∈ e.2.parentHashes, p ∉ commits.map Prod.fst) :
    lookupKV d (calculateLayout commits) = none := by
  have hP := layoutFinalState_preserves commits
    (P := fun st => lookupKV d st.repoData = none)
    (Q := fun h => h ∈ commits.map Prod.fst ∧ h ≠ d)
    (fun h c hQ hc => by
      obtain ⟨e, he, hec, hpe⟩ := mem_childrenOf.mp hc
      refine ⟨List.mem_map.mpr ⟨e, he, hec⟩, ?_⟩
      intro hcd
      have := (hd e he (hec.trans hcd)).2 h hpe
      exact this hQ.1)
    (fun st h _ _ hPst => hPst)
    (fun st h r y lane hQ _ _ hPst => by
      have hne : ¬(h = d) := hQ.2
      simpa [lookupKV, hne] using hPst)
    (fun st hPst => hPst)
    (fun st c cl _ hPst => hPst)
    (fun r hr => by
      obtain ⟨hmem, rec, hlook, hnil⟩ := mem_rootHashes hr
      refine ⟨hmem, ?_⟩
      intro hrd
      subst hrd
      exact (hd (r, rec) (lookupKV_mem hlook) rfl).1 hnil)
    rfl
  exact hP

theorem dangling_parent_commit_omitted_witness :
    lookupKV "a"
      (calculateLayout [("a", { parentHashes := ["zzz"], message := "m", author := "x" })])
      = none :=
  dangling_parent_commit_omitted
    [("a", { parentHashes := ["zzz"], message := "m", author := "x" })] "a" (by decide)

/-! Frame lemmas: once a commit is processed and its node recorded, no later
    traversal step revisits it or disturbs its entry. -/

theorem traverse_keeps_entry (commits : CommitMap) (c : String) (n : CommitNode) :
    ∀ fuel h y lane st,
      c ∈ st.processedCommits → lookupKV c st.repoData = some n →
      c ∈ (traverse commits fuel h y lane st).processedCommits
      ∧ lookupKV c (traverse commits fuel h y lane st).repoData = some n := by
  intro fuel h y lane st h1 h2
  exact traverse_preserves commits
    (P := fun s => c ∈ s.processedCommits ∧ lookupKV c s.repoData = some n)
    (Q := fun _ => True)
    (fun _ _ _ _ => trivial)
    (fun s hx _ _ hPst => ⟨List.mem_cons_of_mem _ hPst.1, hPst.2⟩)
    (fun s hx r yx lanex _ hr hmemx hPst => by
      refine ⟨List.mem_cons_of_mem _ hPst.1, ?_⟩
      have hne : ¬(hx = c) := fun hh => hmemx (hh ▸ hPst.1)
      simpa [lookupKV, hne] using hPst.2)
    (fun s hPst => hPst)
    (fun s cx clx _ hPst => hPst)
    fuel h y lane st trivial ⟨h1, h2⟩

theorem processChildren_keeps_entry (commits : CommitMap) (c : String) (n : CommitNode)
    (fuel : Nat) (hash : String) (y : Int) :
    ∀ kids index cl st,
      c ∈ st.processedCommits → lookupKV c st.repoData = some n →
      c ∈ (processChildren commits
            (fun h2 y2 l2 s2 => traverse commits fuel h2 y2 l2 s2)
            hash y kids index cl st).processedCommits
      ∧ lookupKV c ((processChildren commits
            (fun h2 y2 l2 s2 => traverse commits fuel h2 y2 l2 s2)
            hash y kids index cl st).repoData) = some n := by
  intro kids index cl st h1 h2
  exact processChildren_preserves commits
    (P := fun s => c ∈ s.processedCommits ∧ lookupKV c s.repoData = some n)
    (Q := fun _ => True) _
    (fun c2 y2 l s _ hPst => traverse_keeps_entry commits c n fuel c2 y2 l s hPst.1 hPst.2)
    (fun s hPst => hPst)
    (fun s cx clx _ hPst => hPst)
    hash y kids index cl st (fun _ _ => trivial) ⟨h1, h2⟩

/-- C2: a commit with more than one listed parent, first reached during
    traversal through an edge from a commit that is not its first listed
    parent, is positioned with the lane currently assigned to its first
    listed parent (position x = lane * 2, y one generation below the edge
    source, z from the same lane): the merge branch neither records a lanes
    entry for the commit nor uses the running child lane, so no new lane is
    opened for that merge commit. -/
theorem merge_via_non_first_parent_uses_first_parent_lane
    (commits : CommitMap) (fuel : Nat) (hash : String) (y : Int)
    (rest : List String) (index : Nat) (childLane0 : Option Nat)
    (st : LayoutState) (c : String) (cr : CommitRecord)
    (p0 q : String) (qs : List String) (L : Nat)
    (hc : lookupKV c commits = some cr)
    (hp : cr.parentHashes = p0 :: q :: qs)
    (hne : p0 ≠ hash)
    (hunproc : c ∉ st.processedCommits)
    (hL : getLane st.lanes p0 = some L) :
    lookupKV c
      ((processChildren commits
          (fun h2 y2 l2 s2 => traverse commits (fuel + 1) h2 y2 l2 s2)
          hash y (c :: rest) index childLane0 st).repoData)
      = some (layoutNode cr (y + 2) (some L)) := by
  have hblanes : (bumpIdx index st).lanes = st.lanes := by
    unfold bumpIdx
    split <;> rfl
  have hbproc : (bumpIdx index st).processedCommits = st.processedCommits := by
    unfold bumpIdx
    split <;> rfl
  have hstep :
      childStep commits (fun h2 y2 l2 s2 => traverse commits (fuel + 1) h2 y2 l2 s2)
        hash y c index childLane0 st
      = (bumpLane index st childLane0,
         traverse commits (fuel + 1) c (y + 2) (getLane (bumpIdx index st).lanes p0)
           (bumpIdx index st)) := by
    simp only [childStep, hc, hp]
    rw [if_neg hne]
  have hproc2 : c ∉ (bumpIdx index st).processedCommits := by
    rw [hbproc]
    exact hunproc
  have hLb : getLane (bumpIdx index st).lanes p0 = some L := by
    rw [hblanes]
    exact hL
  have hvisit :
      traverse commits (fuel + 1) c (y + 2) (some L) (bumpIdx index st)
      = processChildren commits (fun h2 y2 l2 s2 => traverse commits fuel h2 y2 l2 s2)
          c (y + 2) (childrenOf commits c) 0 (some L)
          { bumpIdx index st with
            processedCommits := c :: (bumpIdx index st).processedCommits,
            repoData := (c, layoutNode cr (y + 2) (some L)) :: (bumpIdx index st).repoData } := by
    rw [traverse_succ, if_neg hproc2, hc]
  simp only [processChildren]
  rw [hstep, hLb, hvisit]
  have hinner := processChildren_keeps_entry commits c (layoutNode cr (y + 2) (some L))
    fuel c (y + 2) (childrenOf commits c) 0 (some L)
    { bumpIdx index st with
      processedCommits := c :: (bumpIdx index st).processedCommits,
      repoData := (c, layoutNode cr (y + 2) (some L)) :: (bumpIdx index st).repoData }
    (List.mem_cons_self _ _) (by simp [lookupKV])
  have houter := processChildren_keeps_entry commits c (layoutNode cr (y + 2) (some L))
    (fuel + 1) hash y rest (index + 1) (bumpLane index st childLane0) _
    hinner.1 hinner.2
  exact houter.2

/-- Demo commit map for the merge witness. -/
def demoMergeCommits : CommitMap :=
  [("m", { parentHashes := ["b1", "b2"], message := "mm", author := "au" })]

/-- Demo layout state for the merge witness: the first parent b1 already has
    lane 0 assigned. -/
def demoMergeState : LayoutState :=
  { repoData := [], processedCommits := [], lanes := [("b1", some 0)], nextLane := 7 }

theorem merge_via_non_first_parent_uses_first_parent_lane_witness :
    lookupKV "m"
      ((processChildren demoMergeCommits
          (fun h2 y2 l2 s2 => traverse demoMergeCommits (0 + 1) h2 y2 l2 s2)
          "b2" 4 ["m"] 0 (some 3) demoMergeState).repoData)
      = some (layoutNode
          { parentHashes := ["b1", "b2"], message := "mm", author := "au" }
          (4 + 2) (some 0)) :=
  merge_via_non_first_parent_uses_first_parent_lane
    demoMergeCommits 0 "b2" 4 [] 0 (some 3) demoMergeState "m"
    { parentHashes := ["b1", "b2"], message := "mm", author := "au" }
    "b1" "b2" [] 0 (by decide) rfl (by decide) (by decide) (by decide)
